import Mathlib

/-!
Shallow embedding of `src/bitcoin_tour.py` (elliptic-curve arithmetic,
Script/transaction serialization, ECDSA signing) and proofs about it.

Conventions of the embedding:
* Python byte strings are `List Nat` (each entry one byte).
* Python `int` is `Int` (or `Nat` where the source only ever sees
  non-negative values, such as lengths and byte values).
* Python `%` on a positive modulus agrees with `Int.emod`, and Python
  floor division `//` is `Int.fdiv`.
* Fallible Python code (exceptions such as `OverflowError`,
  `AssertionError`, `TypeError`, `ValueError`, `IndexError`) is modelled
  with `Except String`; the message records the exception kind.
* Loops are modelled by fuel-indexed structural recursion so that every
  definition is executable by the kernel; the fuel arguments are chosen
  large enough that the fuel never runs out (proved where needed).
-/

namespace BitcoinTour

/-- Little-endian base-256 digits of width `nbytes`: the byte string
`int.to_bytes(nbytes, 'little')` produces when the integer fits. -/
def encode_int_le (i : Nat) : Nat → List Nat
  | 0 => []
  | nbytes + 1 => i % 256 :: encode_int_le (i / 256) nbytes

/-- Value of a little-endian byte list (how `int.from_bytes(_, 'little')`
reads digits back); inverse of `encode_int_le` on fitting inputs. -/
def fromLE : List Nat → Nat
  | [] => 0
  | b :: bs => b + 256 * fromLE bs

/-- Value of a big-endian byte list, as `int.from_bytes(_, 'big')`. -/
def fromBE (bs : List Nat) : Nat :=
  bs.foldl (fun acc b => acc * 256 + b) 0

/-- Models `encode_int(i, nbytes)` from `src/bitcoin_tour.py` (little-endian
byte order, the only order the transaction code uses): `int.to_bytes` raises
`OverflowError` when the integer does not fit in `nbytes` bytes. -/
def encode_int (i : Nat) (nbytes : Nat) : Except String (List Nat) :=
  if i < 256 ^ nbytes then .ok (encode_int_le i nbytes) else .error (r"OverflowError")

/-- Models `encode_varint(i)` from `src/bitcoin_tour.py`. -/
def encode_varint (i : Nat) : Except String (List Nat) :=
  if i < 0xfd then .ok [i]
  else if i < 0x10000 then do
    let e ← encode_int i 2
    .ok (0xfd :: e)
  else if i < 0x100000000 then do
    let e ← encode_int i 4
    .ok (0xfe :: e)
  else if i < 0x10000000000000000 then do
    let e ← encode_int i 8
    .ok (0xff :: e)
  else .error (r"integer too large: " ++ toString i)

/-- One fuel-indexed unfolding of the `while r != 0` loop inside `inv`
(iterative extended Euclidean algorithm).  The state is
`(old_r, r, old_s, s, old_t, t)` exactly as in the source; Python `//`
is floor division, hence `Int.fdiv`. -/
def egcdGo : Nat → Int → Int → Int → Int → Int → Int → Int × Int × Int
  | 0, old_r, _, old_s, _, old_t, _ => (old_r, old_s, old_t)
  | fuel + 1, old_r, r, old_s, s, old_t, t =>
    if r = 0 then (old_r, old_s, old_t)
    else
      let quotient := Int.fdiv old_r r
      egcdGo fuel r (old_r - quotient * r) s (old_s - quotient * s) t (old_t - quotient * t)

/-- Models `inv(n, p)` from `src/bitcoin_tour.py`: extended Euclid returning
the Bezout coefficient of `n` reduced by `% p` (Python `%` on a positive
modulus is `Int.emod`).  The fuel `p.natAbs + 1` strictly exceeds
`|r₀| = |p|`, and `|r|` strictly decreases per iteration, so it never
runs out. -/
def inv (n p : Int) : Int :=
  (egcdGo (p.natAbs + 1) n p 1 0 0 1).2.1 % p

/-! SHA-256, modelling `hashlib.sha256` (an external primitive of the
source, specified by FIPS 180-4).  Words are `Nat`s reduced `% 2^32`. -/

/-- Rotate a 32-bit word right by `n` places, expressed arithmetically. -/
def ror32 (x n : Nat) : Nat :=
  (x / 2 ^ n + x % 2 ^ n * 2 ^ (32 - n)) % 2 ^ 32

/-- The 64 SHA-256 round constants of FIPS 180-4, in decimal. -/
def sha256K : List Nat :=
  [1116352408, 1899447441, 3049323471, 3921009573, 961987163,
   1508970993, 2453635748, 2870763221, 3624381080, 310598401,
   607225278, 1426881987, 1925078388, 2162078206, 2614888103,
   3248222580, 3835390401, 4022224774, 264347078, 604807628,
   770255983, 1249150122, 1555081692, 1996064986, 2554220882,
   2821834349, 2952996808, 3210313671, 3336571891, 3584528711,
   113926993, 338241895, 666307205, 773529912, 1294757372,
   1396182291, 1695183700, 1986661051, 2177026350, 2456956037,
   2730485921, 2820302411, 3259730800, 3345764771, 3516065817,
   3600352804, 4094571909, 275423344, 430227734, 506948616,
   659060556, 883997877, 958139571, 1322822218, 1537002063,
   1747873779, 1955562222, 2024104815, 2227730452, 2361852424,
   2428436474, 2756734187, 3204031479, 3329325298]

/-- The eight 32-bit words of the SHA-256 initial state, in decimal. -/
def sha256H0 : List Nat :=
  [1779033703, 3144134277, 1013904242, 2773480762, 1359893119,
   2600822924, 528734635, 1541459225]

/-- Group a byte list into big-endian 32-bit words. -/
def toWords : List Nat → List Nat
  | b0 :: b1 :: b2 :: b3 :: rest => (((b0 * 256 + b1) * 256 + b2) * 256 + b3) :: toWords rest
  | _ => []

/-- Extend 16 message words to 64 (the accumulator keeps the newest word
first; the fuel is the number of words still to produce). -/
def schedGo : Nat → List Nat → List Nat
  | 0, ws => ws.reverse
  | k + 1, ws =>
    let g := fun i => ws.getD i 0
    let s0 := ror32 (g 14) 7 ^^^ ror32 (g 14) 18 ^^^ g 14 / 2 ^ 3
    let s1 := ror32 (g 1) 17 ^^^ ror32 (g 1) 19 ^^^ g 1 / 2 ^ 10
    schedGo k ((g 15 + s0 + g 6 + s1) % 2 ^ 32 :: ws)

/-- One SHA-256 compression round; the state is `[a,b,c,d,e,f,g,h]`. -/
def sha256Round (st : List Nat) (kw : Nat × Nat) : List Nat :=
  let a := st.getD 0 0
  let b := st.getD 1 0
  let c := st.getD 2 0
  let d := st.getD 3 0
  let e := st.getD 4 0
  let f := st.getD 5 0
  let g := st.getD 6 0
  let h := st.getD 7 0
  let bigS1 := ror32 e 6 ^^^ ror32 e 11 ^^^ ror32 e 25
  let ch := (e &&& f) ^^^ ((e ^^^ 0xffffffff) &&& g)
  let t1 := (h + bigS1 + ch + kw.1 + kw.2) % 2 ^ 32
  let bigS0 := ror32 a 2 ^^^ ror32 a 13 ^^^ ror32 a 22
  let maj := (a &&& b) ^^^ (a &&& c) ^^^ (b &&& c)
  let t2 := (bigS0 + maj) % 2 ^ 32
  [(t1 + t2) % 2 ^ 32, a, b, c, (d + t1) % 2 ^ 32, e, f, g]

/-- Compress one 64-byte block into the running hash (8 words). -/
def sha256Block (h : List Nat) (block : List Nat) : List Nat :=
  let ws := schedGo 48 (toWords block).reverse
  let fin := (sha256K.zip ws).foldl sha256Round h
  List.zipWith (fun x y => (x + y) % 2 ^ 32) h fin

/-- Fold the compression function over `nb` consecutive 64-byte blocks. -/
def sha256Blocks : Nat → List Nat → List Nat → List Nat
  | 0, h, _ => h
  | nb + 1, h, msg => sha256Blocks nb (sha256Block h (msg.take 64)) (msg.drop 64)

/-- SHA-256 of a byte list, as `hashlib.sha256(msg).digest()`. -/
def sha256 (msg : List Nat) : List Nat :=
  let L := msg.length
  let padded := msg ++ 0x80 :: List.replicate ((120 - (L + 1) % 64) % 64) 0 ++
    (encode_int_le (8 * L) 8).reverse
  ((sha256Blocks (padded.length / 64) sha256H0 padded).map
    (fun w => (encode_int_le w 4).reverse)).flatten

/-! Elliptic-curve data model: `Curve`, `Point`, `INF`, `Generator`. -/

/-- Models the `Curve` class: `y^2 = x^3 + a*x + b (mod p)`. -/
structure Curve where
  p : Int
  a : Int
  b : Int
deriving DecidableEq

/-- Models `Point` objects.  The module-level sentinel
`INF = Point(None, None, None)` is its own constructor because `Point`
has no `__eq__`: Python `q == INF` is object identity, so only the `INF`
object itself compares equal to `INF`, and any other `Point(...)` call —
even one with all-`None` fields — yields a distinct object, modelled by
`mk`.  Fields are `Option`s because the sentinel (and user code) can
hold `None` where an `int` or `Curve` is expected. -/
inductive Point where
  | INF : Point
  | mk (curve : Option Curve) (x : Option Int) (y : Option Int) : Point
deriving DecidableEq

/-- Python `==` on `int`-or-`None` fields (`None == None` is `True`,
`int == None` is `False`). -/
def pyEq : Option Int → Option Int → Bool
  | some a, some b => a == b
  | none, none => true
  | _, _ => false

/-- The doubling branch of `Point.__add__` (`self.x == other.x` with
`self.y == other.y`): slope from `self`'s coordinates and curve; a `None`
among the fields used raises (`TypeError`/`AttributeError`). -/
def pyDouble (c1 : Option Curve) (x1 x2 y1 : Option Int) : Except String Point :=
  match c1, x1, x2, y1 with
  | some c, some xv1, some xv2, some yv1 =>
    let m := (3 * xv1 ^ 2 + c.a) * inv (2 * yv1) c.p
    let rx := (m ^ 2 - xv1 - xv2) % c.p
    let ry := (-(m * (rx - xv1) + yv1)) % c.p
    .ok (.mk (some c) (some rx) (some ry))
  | _, _, _, _ => .error (r"TypeError")

/-- The general chord branch of `Point.__add__` (`self.x != other.x`):
slope through the two points; a `None` among the fields used raises. -/
def pyChord (c1 : Option Curve) (x1 x2 y1 y2 : Option Int) : Except String Point :=
  match c1, x1, x2, y1, y2 with
  | some c, some xv1, some xv2, some yv1, some yv2 =>
    let m := (yv1 - yv2) * inv (xv1 - xv2) c.p
    let rx := (m ^ 2 - xv1 - xv2) % c.p
    let ry := (-(m * (rx - xv1) + yv1)) % c.p
    .ok (.mk (some c) (some rx) (some ry))
  | _, _, _, _, _ => .error (r"TypeError")

/-- Models `Point.__add__`.  An `.error` models the `TypeError` /
`AttributeError` Python raises when slope or coordinate arithmetic hits a
`None` field (the branch order and the use of `self.curve` only follow
the source).  Python `%` on the positive modulus `p` is `Int.emod`. -/
def pyAdd (self other : Point) : Except String Point :=
  match self with
  | .INF => .ok other
  | .mk c1 x1 y1 =>
    match other with
    | .INF => .ok (.mk c1 x1 y1)
    | .mk _c2 x2 y2 =>
      if pyEq x1 x2 && !(pyEq y1 y2) then .ok .INF
      else if pyEq x1 x2 then pyDouble c1 x1 x2 y1
      else pyChord c1 x1 x2 y1 y2

/-- One fuel-indexed unfolding of the `while k` loop in `Point.__rmul__`
(double-and-add).  As in the source, `append + append` is computed on
every iteration, even the last. -/
def rmulGo : Nat → Nat → Point → Point → Except String Point
  | 0, _, result, _ => .ok result
  | fuel + 1, k, result, append =>
    if k = 0 then .ok result
    else do
      let result2 ← if k % 2 = 1 then pyAdd result append else .ok result
      let append2 ← pyAdd append append
      rmulGo fuel (k / 2) result2 append2

/-- Models `Point.__rmul__` (`k * P`): the `assert k >= 0` is the error
case, then double-and-add from `INF`.  The fuel `k.toNat + 1` exceeds the
number of halvings of `k` down to `0`. -/
def rmul (k : Int) (P : Point) : Except String Point :=
  if k < 0 then .error (r"AssertionError")
  else rmulGo (k.toNat + 1) k.toNat Point.INF P

/-- Models the `Generator` class: base point plus group order. -/
structure Generator where
  G : Point
  n : Int

/-! Script. -/

/-- A Script command as the source stores it: an `int` opcode, a `bytes`
push, or any other Python value — in this program a `str` (the hex
public-key hash placed by `create_transaction_input`). -/
inductive Cmd where
  | i (n : Int) : Cmd
  | b (bs : List Nat) : Cmd
  | s (st : String) : Cmd
deriving DecidableEq

/-- Models the `Script` class: a list of commands. -/
structure Script where
  cmds : List Cmd
deriving DecidableEq

/-- The per-command loop of `Script.encode`: an `int` command encodes via
`encode_int(cmd, 1)` (hence `OverflowError` outside `[0, 256)`), a `bytes`
command as length byte plus content (with `assert length < 75`), and any
other command — e.g. a `str` — matches neither `isinstance` test and is
silently skipped. -/
def encodeCmds : List Cmd → Except String (List Nat)
  | [] => .ok []
  | c :: rest => do
    let head ← match c with
      | .i n => if 0 ≤ n ∧ n < 256 then .ok [n.toNat] else .error (r"OverflowError")
      | .b bs => if bs.length < 75 then .ok (bs.length :: bs) else .error (r"AssertionError")
      | .s _ => .ok ([] : List Nat)
    let tail ← encodeCmds rest
    .ok (head ++ tail)

/-- Models `Script.encode`: the encoded commands prefixed with the varint
of their total length. -/
def Script.encode (s : Script) : Except String (List Nat) := do
  let ret ← encodeCmds s.cmds
  let pre ← encode_varint ret.length
  .ok (pre ++ ret)

/-! Transaction. -/

/-- Models the dict built by `Transaction.create_transaction_input`. -/
structure TxInput where
  prev_transaction_id : List Nat
  prev_transaction_idx : Nat
  script_sig : Option Script
  sequence : Nat
  prev_transaction_script_pubkey : Script
deriving DecidableEq

/-- Models the dict built by `Transaction.create_transaction_output`. -/
structure TxOutput where
  amount : Nat
  script_pubkey : Script
deriving DecidableEq

/-- Models the `Transaction` class (version and locktime; inputs and
outputs are passed to the encoding operations, as in the source). -/
structure Transaction where
  version : Nat
  locktime : Nat
deriving DecidableEq

/-- Models `Transaction.create_transaction_input`: note the implied
locking script `Script([118, 169, publickey_hash, 126, 172])` — the hash
is stored as the `str` it was passed as, and the fourth command is the
literal `126` of the source. -/
def Transaction.create_transaction_input (_tx : Transaction)
    (prev_transaction_id : List Nat) (prev_transaction_idx : Nat)
    (publickey_hash : String) (script_sig : Option Script) (sequence : Nat) : TxInput :=
  { prev_transaction_id := prev_transaction_id
    prev_transaction_idx := prev_transaction_idx
    script_sig := script_sig
    sequence := sequence
    prev_transaction_script_pubkey :=
      Script.mk [.i 118, .i 169, .s publickey_hash, .i 126, .i 172] }

/-- Models `Transaction.encode_transaction_input`.  `script_override` is
the `None`/`True`/`False` tri-state; with `None` the input's own
`script_sig` is encoded (`None.encode()` would raise, modelled as an
error), with `True` the previous output's locking script, with `False`
an empty script. -/
def Transaction.encode_transaction_input (_tx : Transaction) (inp : TxInput)
    (script_override : Option Bool) : Except String (List Nat) := do
  let idx ← encode_int inp.prev_transaction_idx 4
  let scr ← match script_override with
    | none =>
      match inp.script_sig with
      | some s => s.encode
      | none => .error (r"AttributeError")
    | some true => inp.prev_transaction_script_pubkey.encode
    | some false => (Script.mk []).encode
  let seq ← encode_int inp.sequence 4
  .ok (inp.prev_transaction_id.reverse ++ idx ++ scr ++ seq)

/-- Models `Transaction.create_transaction_output`. -/
def Transaction.create_transaction_output (_tx : Transaction)
    (amount : Nat) (script_pubkey : Script) : TxOutput :=
  { amount := amount, script_pubkey := script_pubkey }

/-- Models `Transaction.encode_transaction_output`. -/
def Transaction.encode_transaction_output (_tx : Transaction)
    (out : TxOutput) : Except String (List Nat) := do
  let amt ← encode_int out.amount 8
  let spk ← out.script_pubkey.encode
  .ok (amt ++ spk)

/-- The `sig_index == -1` list comprehension of `Transaction.encode`:
every input is encoded with `script_override = None`. -/
def encodeInputsPlain (tx : Transaction) : List TxInput → Except String (List Nat)
  | [] => .ok []
  | inp :: rest => do
    let h ← tx.encode_transaction_input inp none
    let t ← encodeInputsPlain tx rest
    .ok (h ++ t)

/-- The signature-hash list comprehension of `Transaction.encode`: input
`i` is encoded with `script_override = (sig_index == i)`. -/
def encodeInputsSig (tx : Transaction) (sig_index : Int) :
    Nat → List TxInput → Except String (List Nat)
  | _, [] => .ok []
  | i, inp :: rest => do
    let h ← tx.encode_transaction_input inp (some (sig_index == (i : Int)))
    let t ← encodeInputsSig tx sig_index (i + 1) rest
    .ok (h ++ t)

/-- The output list comprehension of `Transaction.encode`. -/
def encodeOutputs (tx : Transaction) : List TxOutput → Except String (List Nat)
  | [] => .ok []
  | out :: rest => do
    let h ← tx.encode_transaction_output out
    let t ← encodeOutputs tx rest
    .ok (h ++ t)

/-- Models `Transaction.encode(transaction_inputs, transaction_outputs,
sig_index)`: version, varint input count, inputs (with per-input script
override when `sig_index != -1`), varint output count, outputs, locktime,
and the 4-byte `SIGHASH_ALL` constant `1` exactly when `sig_index != -1`. -/
def Transaction.encode (tx : Transaction) (transaction_inputs : List TxInput)
    (transaction_outputs : List TxOutput) (sig_index : Int) :
    Except String (List Nat) := do
  let ver ← encode_int tx.version 4
  let icnt ← encode_varint transaction_inputs.length
  let ibytes ←
    if sig_index = -1 then encodeInputsPlain tx transaction_inputs
    else encodeInputsSig tx sig_index 0 transaction_inputs
  let ocnt ← encode_varint transaction_outputs.length
  let obytes ← encodeOutputs tx transaction_outputs
  let lk ← encode_int tx.locktime 4
  let trailer := if sig_index ≠ -1 then encode_int_le 1 4 else []
  .ok (ver ++ icnt ++ ibytes ++ ocnt ++ obytes ++ lk ++ trailer)

/-! Signature. -/

/-- Models the `Signature` class: the pair `(r, s)`. -/
structure Signature where
  r : Int
  s : Int
deriving DecidableEq

/-- The inner `dern` helper of `Signature.signature_encode`:
`n.to_bytes(32, 'big')` (hence `OverflowError` outside `[0, 2^256)`),
leading zero bytes stripped, then a `0x00` prefix when the first
remaining byte has its high bit set; `nb[0]` on an empty strip result is
an `IndexError`. -/
def dern (n : Int) : Except String (List Nat) :=
  if 0 ≤ n ∧ n < 2 ^ 256 then
    match ((encode_int_le n.toNat 32).reverse).dropWhile (fun b => b == 0) with
    | [] => .error (r"IndexError")
    | b0 :: rest => .ok (if 0x80 ≤ b0 then 0 :: b0 :: rest else b0 :: rest)
  else .error (r"OverflowError")

/-- Models `Signature.signature_encode` (DER): each of `r`, `s` wrapped
in an `0x02 len bytes` TLV, both wrapped in an outer `0x30 len` TLV. -/
def Signature.signature_encode (sig : Signature) : Except String (List Nat) := do
  let rb ← dern sig.r
  let sb ← dern sig.s
  let content := [0x02, rb.length] ++ rb ++ [0x02, sb.length] ++ sb
  .ok ([0x30, content.length] ++ content)

/-- Fuel-indexed base-2 logarithm (floor), large fuel. -/
def log2F : Nat → Nat → Nat
  | 0, _ => 0
  | fuel + 1, n => if 2 ≤ n then log2F fuel (n / 2) + 1 else 0

/-- Round a natural number to at most 53 significant bits, ties to even:
the value of the IEEE-754 double `float(n)` for `n < 2^1024`, which is
how CPython converts a large `int` in `int`/`int` true division. -/
def roundNat53 (n : Nat) : Nat :=
  if n < 2 ^ 53 then n
  else
    let e := log2F 1100 n - 52
    let q := n / 2 ^ e
    let rest := n % 2 ^ e
    let half := 2 ^ (e - 1)
    (if half < rest ∨ (rest = half ∧ q % 2 = 1) then q + 1 else q) * 2 ^ e

/-- Models `sign(secret_key, message, generator)`.  The ephemeral draw
`sk = random.randrange(1, n)` is modelled by the extra parameter `k`
(the claim quantifies over the value chosen).  The double SHA-256 models
the two `hashlib.sha256` calls.  The source's comparison `s > n / 2`
divides two `int`s with `/`, producing the IEEE-754 double nearest to
`n/2`; CPython then compares the `int` `s` with that double exactly.  For
`0 ≤ n < 2^1024` that double equals `roundNat53 n / 2` as a rational,
so the comparison is exactly `2 * s > roundNat53 n`. -/
def sign (secret_key : Int) (message : List Nat) (generator : Generator)
    (k : Int) : Except String Signature := do
  let n := generator.n
  let z : Int := (fromBE (sha256 (sha256 message)) : Nat)
  let P ← rmul k generator.G
  match P with
  | .mk _ (some px) _ =>
    let r := px
    let s := inv k n * (z + secret_key * r) % n
    let s2 := if 2 * s > (roundNat53 n.toNat : Int) then n - s else s
    .ok (Signature.mk r s2)
  | _ => .error (r"TypeError")

/-! Concrete secp256k1 parameters (the curve this program is written for;
the source leaves their definition to the caller). -/

/-- The secp256k1 field prime. -/
def secp256k1_p : Int :=
  0xFFFFFFFFFFFFFFFFFFFFFFFFFFFFFFFFFFFFFFFFFFFFFFFFFFFFFFFEFFFFFC2F

/-- The secp256k1 curve `y^2 = x^3 + 7`. -/
def secp256k1_curve : Curve :=
  { p := secp256k1_p, a := 0, b := 7 }

/-- The secp256k1 base point. -/
def secp256k1_G : Point :=
  .mk (some secp256k1_curve)
    (some 0x79BE667EF9DCBBAC55A06295CE870B07029BFCDB2DCE28D959F2815B16F81798)
    (some 0x483ADA7726A3C4655DA4FBFC0E1108A8FD17B448A68554199C47D08FFB10D4B8)

/-- The order of the secp256k1 base point. -/
def secp256k1_n : Int :=
  0xFFFFFFFFFFFFFFFFFFFFFFFFFFFFFFFEBAAEDCE6AF48A03BBFD25E8CD0364141

/-- The secp256k1 generator. -/
def secp256k1_gen : Generator :=
  { G := secp256k1_G, n := secp256k1_n }

/-! Definitions used only to state claims. -/

/-- True for the commands that are neither `int` nor `bytes` (in this
program: the `str` public-key hash). -/
def isStrCmd : Cmd → Bool
  | .s _ => true
  | _ => false

/-- Spec-side description of the signature-hash input substitution: input
`j` gets its previous output's locking script as its `script_sig`, every
other input an empty script (`i` is the index of the list head). -/
def substIdx (sig_index : Int) : Nat → List TxInput → List TxInput
  | _, [] => []
  | i, inp :: rest =>
    (if sig_index = (i : Int) then
      { inp with script_sig := some inp.prev_transaction_script_pubkey }
     else
      { inp with script_sig := some (Script.mk []) }) :: substIdx sig_index (i + 1) rest

/-- Membership in the curve group as the spec's data model defines it: the
identity sentinel, or a point of `F_p × F_p` (coordinates reduced into
`[0, p)`) carrying this curve and satisfying its equation. -/
def onCurveB (c : Curve) : Point → Bool
  | .INF => true
  | .mk oc (some x) (some y) =>
    oc == some c && decide (0 ≤ x) && decide (x < c.p) &&
    decide (0 ≤ y) && decide (y < c.p) &&
    (y ^ 2 % c.p == (x ^ 3 + c.a * x + c.b) % c.p)
  | _ => false

/-- Python `q == INF` where `INF` is the module singleton: `Point` has no
`__eq__`, so this is object identity — true exactly for the sentinel. -/
def eqINF : Point → Bool
  | .INF => true
  | _ => false

/-! Helper lemmas. -/

theorem fromLE_encode_int_le (n : Nat) :
    ∀ i : Nat, i < 256 ^ n → fromLE (encode_int_le i n) = i := by
  induction n with
  | zero =>
    intro i hi
    simp only [Nat.pow_zero, Nat.lt_one_iff] at hi
    subst hi
    rfl
  | succ n ih =>
    intro i hi
    have h2 : i / 256 < 256 ^ n := by
      refine (Nat.div_lt_iff_lt_mul (by norm_num)).mpr ?_
      calc i < 256 ^ (n + 1) := hi
        _ = 256 ^ n * 256 := by ring
    simp only [encode_int_le, fromLE, ih (i / 256) h2]
    exact Nat.mod_add_div i 256

theorem fromLE_eq_zero (bs : List Nat) (h : ∀ b ∈ bs, b = 0) : fromLE bs = 0 := by
  induction bs with
  | nil => rfl
  | cons b rest ih =>
    have hb : b = 0 := h b (by simp)
    have := ih (fun x hx => h x (by simp [hx]))
    simp [fromLE, hb, this]

theorem encodeCmds_filter (cmds : List Cmd) :
    encodeCmds cmds = encodeCmds (cmds.filter (fun c => !isStrCmd c)) := by
  induction cmds with
  | nil => rfl
  | cons c rest ih =>
    cases c with
    | i n =>
      have hf : (Cmd.i n :: rest).filter (fun c => !isStrCmd c)
          = Cmd.i n :: rest.filter (fun c => !isStrCmd c) := rfl
      rw [hf]
      simp only [encodeCmds]
      rw [ih]
    | b bs =>
      have hf : (Cmd.b bs :: rest).filter (fun c => !isStrCmd c)
          = Cmd.b bs :: rest.filter (fun c => !isStrCmd c) := rfl
      rw [hf]
      simp only [encodeCmds]
      rw [ih]
    | s st =>
      have hf : (Cmd.s st :: rest).filter (fun c => !isStrCmd c)
          = rest.filter (fun c => !isStrCmd c) := rfl
      rw [hf, ← ih]
      simp only [encodeCmds]
      cases h : encodeCmds rest with
      | ok t => rfl
      | error e => rfl

/-! Claim theorems. -/

/-- C1: the implied locking script that `create_transaction_input` builds
is `Script([118, 169, publickey_hash, 126, 172])` — its fourth command is
the opcode 126, not the canonical P2PKH `OP_EQUALVERIFY` byte 0x88 (136),
and the public-key hash sits in it as a `str`; consequently, the claimed
template `76 a9 <hash> 88 ac` is not what the code builds (evaluated here
at a concrete input). -/
theorem c1_implied_script_eval :
    ((Transaction.mk 1 0).create_transaction_input [170] 0 (r"ab") none 4294967295).prev_transaction_script_pubkey
      = Script.mk [.i 118, .i 169, .s (r"ab"), .i 126, .i 172] ∧
    Script.mk [.i 118, .i 169, .s (r"ab"), .i 126, .i 172]
      ≠ Script.mk [.i 118, .i 169, .s (r"ab"), .i 136, .i 172] ∧
    (Script.mk [.i 118, .i 169, .s (r"ab"), .i 126, .i 172]).encode
      = .ok [4, 118, 169, 126, 172] := by
  refine ⟨rfl, by decide, rfl⟩

/-- C2: `Script.encode` silently skips every command that is neither an
`int` nor a `bytes` value: encoding a command list is the same as
encoding the list with those commands removed (so they never appear in
the serialized script and raise no error), and in particular the implied
P2PKH script of `create_transaction_input`, whose hash is a `str`,
encodes without error to the four opcode bytes alone. -/
theorem c2_encode_skips_nonbytes (cmds : List Cmd) (h : String) :
    Script.encode (Script.mk cmds)
      = Script.encode (Script.mk (cmds.filter (fun c => !isStrCmd c))) ∧
    Script.encode (Script.mk [.i 118, .i 169, .s h, .i 126, .i 172])
      = .ok [4, 118, 169, 126, 172] := by
  constructor
  · simp only [Script.encode]
    rw [encodeCmds_filter cmds]
  · rfl

/-- C7 amended: the module-level sentinel `INF` itself is a two-sided
additive identity for every point and compares equal to the identity
element. -/
theorem c7_INF_identity (P : Point) :
    pyAdd Point.INF P = .ok P ∧ pyAdd P Point.INF = .ok P ∧ eqINF Point.INF = true := by
  cases P <;> exact ⟨rfl, rfl, rfl⟩

/-- C7 counterexample: a separately constructed point with both
coordinates `null` (`Point(None, None, None)`) does not compare equal to
the identity element (`==` against `INF` is object identity), and adding
it to an ordinary curve point raises a `TypeError` instead of acting as
the additive identity. -/
theorem c7_fresh_null_point_not_identity :
    eqINF (Point.mk none none none) = false ∧
    pyAdd (Point.mk (some (Curve.mk 5 0 3)) (some 1) (some 2)) (Point.mk none none none)
      = .error (r"TypeError") ∧
    pyAdd (Point.mk none none none) (Point.mk (some (Curve.mk 5 0 3)) (some 1) (some 2))
      = .error (r"TypeError") := by
  refine ⟨rfl, rfl, rfl⟩

/-- C9: `encode_varint` returns one byte below 0xfd, otherwise the tag
0xfd/0xfe/0xff followed by the little-endian value in the smallest of
2/4/8 bytes that fits (the value is reproduced exactly, never
truncated), and fails with the descriptive `ValueError` exactly for
`i ≥ 2^64`. -/
theorem c9_encode_varint_spec (i : Nat) :
    (i < 0xfd → encode_varint i = .ok [i]) ∧
    (0xfd ≤ i → i < 2 ^ 16 →
      encode_varint i = .ok (0xfd :: encode_int_le i 2) ∧ fromLE (encode_int_le i 2) = i) ∧
    (2 ^ 16 ≤ i → i < 2 ^ 32 →
      encode_varint i = .ok (0xfe :: encode_int_le i 4) ∧ fromLE (encode_int_le i 4) = i) ∧
    (2 ^ 32 ≤ i → i < 2 ^ 64 →
      encode_varint i = .ok (0xff :: encode_int_le i 8) ∧ fromLE (encode_int_le i 8) = i) ∧
    (2 ^ 64 ≤ i → encode_varint i = .error (r"integer too large: " ++ toString i)) := by
  refine ⟨fun h1 => ?_, fun h1 h2 => ⟨?_, ?_⟩, fun h1 h2 => ⟨?_, ?_⟩, fun h1 h2 => ⟨?_, ?_⟩, fun h1 => ?_⟩
  · simp only [encode_varint]
    rw [if_pos h1]
  · simp only [encode_varint, encode_int]
    rw [if_neg (by omega), if_pos (by omega), if_pos (by omega)]
    rfl
  · exact fromLE_encode_int_le 2 i (by omega)
  · simp only [encode_varint, encode_int]
    rw [if_neg (by omega), if_neg (by omega), if_pos (by omega),
      if_pos (by omega)]
    rfl
  · exact fromLE_encode_int_le 4 i (by omega)
  · simp only [encode_varint, encode_int]
    rw [if_neg (by omega), if_neg (by omega), if_neg (by omega),
      if_pos (by omega), if_pos (by omega)]
    rfl
  · exact fromLE_encode_int_le 8 i (by omega)
  · simp only [encode_varint]
    rw [if_neg (by omega), if_neg (by omega), if_neg (by omega),
      if_neg (by omega)]

/-- C9 witness: the theorem applied at the boundary input 2^16. -/
theorem c9_encode_varint_spec_witness :
    encode_varint 65536 = .ok (0xfe :: encode_int_le 65536 4) ∧
      fromLE (encode_int_le 65536 4) = 65536 :=
  (c9_encode_varint_spec 65536).2.2.1 (by norm_num) (by norm_num)

theorem dern_ok_of_range (n : Int) (h1 : 1 ≤ n) (h2 : n < 2 ^ 256) :
    ∃ out, dern n = .ok out := by
  have hcond : 0 ≤ n ∧ n < 2 ^ 256 := ⟨by omega, h2⟩
  have hlt : n.toNat < 256 ^ 32 := by
    have hc : (n.toNat : Int) < 2 ^ 256 := by
      rw [Int.toNat_of_nonneg hcond.1]; exact h2
    have : n.toNat < 2 ^ 256 := by exact_mod_cast hc
    calc n.toNat < 2 ^ 256 := this
      _ = 256 ^ 32 := by norm_num
  have hne : ((encode_int_le n.toNat 32).reverse).dropWhile (fun b => b == 0) ≠ [] := by
    intro hnil
    have hall := List.dropWhile_eq_nil_iff.mp hnil
    have hall2 : ∀ x ∈ encode_int_le n.toNat 32, x = 0 := by
      intro x hx
      have hb := hall x (List.mem_reverse.mpr hx)
      simpa using hb
    have hz : fromLE (encode_int_le n.toNat 32) = 0 := fromLE_eq_zero _ hall2
    have hv : fromLE (encode_int_le n.toNat 32) = n.toNat :=
      fromLE_encode_int_le 32 n.toNat hlt
    omega
  obtain ⟨b0, rest, hcons⟩ :
      ∃ b0 rest, ((encode_int_le n.toNat 32).reverse).dropWhile (fun b => b == 0)
        = b0 :: rest := by
    cases hh : ((encode_int_le n.toNat 32).reverse).dropWhile (fun b => b == 0) with
    | nil => exact absurd hh hne
    | cons b0 rest => exact ⟨b0, rest, rfl⟩
  refine ⟨if 0x80 ≤ b0 then 0 :: b0 :: rest else b0 :: rest, ?_⟩
  simp only [dern]
  rw [if_pos hcond, hcons]

/-- C10: for every Signature with both r and s in [1, 2^256 - 1],
`signature_encode` returns without error: stripping the leading zero
bytes of the 32-byte big-endian encoding always leaves at least one byte,
so the first-byte access of the DER sign test is in range. -/
theorem c10_signature_encode_total (r s : Int)
    (hr1 : 1 ≤ r) (hr2 : r < 2 ^ 256) (hs1 : 1 ≤ s) (hs2 : s < 2 ^ 256) :
    ∃ bs, (Signature.mk r s).signature_encode = .ok bs := by
  obtain ⟨rb, hrb⟩ := dern_ok_of_range r hr1 hr2
  obtain ⟨sb, hsb⟩ := dern_ok_of_range s hs1 hs2
  refine ⟨[0x30, ([0x02, rb.length] ++ rb ++ [0x02, sb.length] ++ sb).length] ++
    ([0x02, rb.length] ++ rb ++ [0x02, sb.length] ++ sb), ?_⟩
  simp only [Signature.signature_encode, bind, Except.bind, hrb, hsb]

/-- C10 witness: the theorem applied at r = s = 1. -/
theorem c10_signature_encode_total_witness :
    ∃ bs, (Signature.mk 1 1).signature_encode = .ok bs :=
  c10_signature_encode_total 1 1 (by norm_num) (by norm_num) (by norm_num) (by norm_num)

set_option maxRecDepth 100000 in
/-- C3: evaluation at a concrete failing input — the secp256k1 generator,
the secret key d below, message b'' and ephemeral scalar k = 1 (d and k
both lie in [1, n-1]) — `sign` returns s = 2^255 with 2*s > n, i.e.
s > n/2, unnormalized: the source compares s against the float `n / 2`,
which for the secp256k1 order rounds to exactly 2^255, so every computed
s in (n/2, 2^255] escapes the low-s replacement. -/
theorem c3_low_s_violated_eval :
    sign 94596137839277976448714819128540480943484161855487991680063351512512224672661
        [] secp256k1_gen 1
      = .ok (Signature.mk
          55066263022277343669578718895168534326250603453777594175500187360389116729240
          (2 ^ 255)) ∧
    2 * (2 : Int) ^ 255 > secp256k1_n ∧
    (1 : Int) ≤ 94596137839277976448714819128540480943484161855487991680063351512512224672661 ∧
    (94596137839277976448714819128540480943484161855487991680063351512512224672661 : Int)
      ≤ secp256k1_n - 1 ∧
    (1 : Int) ≤ 1 ∧ (1 : Int) ≤ secp256k1_n - 1 := by
  refine ⟨by rfl, by decide, by decide, by decide, by decide, by decide⟩

theorem length_substIdx (j : Int) :
    ∀ (i : Nat) (ins : List TxInput), (substIdx j i ins).length = ins.length := by
  intro i ins
  induction ins generalizing i with
  | nil => rfl
  | cons inp rest ih => simp [substIdx, ih]

theorem encodeInputsSig_eq_plain (tx : Transaction) (j : Int) :
    ∀ (i : Nat) (ins : List TxInput),
      encodeInputsSig tx j i ins = encodeInputsPlain tx (substIdx j i ins) := by
  intro i ins
  induction ins generalizing i with
  | nil => rfl
  | cons inp rest ih =>
    simp only [encodeInputsSig, substIdx, encodeInputsPlain]
    by_cases hji : j = (i : Int)
    · rw [if_pos hji]
      have hb : (j == (i : Int)) = true := beq_iff_eq.mpr hji
      rw [hb, ih (i + 1)]
      rfl
    · rw [if_neg hji]
      have hb : (j == (i : Int)) = false := beq_eq_false_iff_ne.mpr hji
      rw [hb, ih (i + 1)]
      rfl

theorem map_append_chain (E1 E2 E3 E4 E5 E6 : Except String (List Nat)) (tl : List Nat) :
    (do
      let a ← E1
      let b ← E2
      let c ← E3
      let d ← E4
      let e ← E5
      let f ← E6
      Except.ok (a ++ b ++ c ++ d ++ e ++ f ++ tl))
      = Except.map (fun bs => bs ++ tl)
        (do
          let a ← E1
          let b ← E2
          let c ← E3
          let d ← E4
          let e ← E5
          let f ← E6
          Except.ok (a ++ b ++ c ++ d ++ e ++ f ++ ([] : List Nat))) := by
  cases E1 <;> cases E2 <;> cases E3 <;> cases E4 <;> cases E5 <;> cases E6 <;>
    simp [Bind.bind, Except.bind, Except.map, List.append_assoc]

theorem encode_sig_eq_map (tx : Transaction) (ins : List TxInput)
    (outs : List TxOutput) (j : Int) (hj : j ≠ -1) :
    tx.encode ins outs j
      = (tx.encode (substIdx j 0 ins) outs (-1)).map
          (fun bs => bs ++ encode_int_le 1 4) := by
  simp only [Transaction.encode]
  rw [encodeInputsSig_eq_plain tx j 0 ins, length_substIdx j 0 ins]
  simp only [hj, if_false, if_true, ite_true, ite_false, ne_eq,
    not_false_eq_true, not_true_eq_false]
  exact map_append_chain _ _ _ _ _ _ _

theorem encode_final_tail (tx : Transaction) (ins : List TxInput)
    (outs : List TxOutput) (bs : List Nat)
    (h : tx.encode ins outs (-1) = .ok bs) :
    ∃ pre, bs = pre ++ encode_int_le tx.locktime 4 := by
  have hunf : tx.encode ins outs (-1) = (do
      let ver ← encode_int tx.version 4
      let icnt ← encode_varint ins.length
      let ib ← encodeInputsPlain tx ins
      let ocnt ← encode_varint outs.length
      let ob ← encodeOutputs tx outs
      let lk ← encode_int tx.locktime 4
      Except.ok (ver ++ icnt ++ ib ++ ocnt ++ ob ++ lk ++ ([] : List Nat))) := rfl
  rw [hunf] at h
  cases h1 : encode_int tx.version 4 with
  | error e => rw [h1] at h; simp [Bind.bind, Except.bind] at h
  | ok ver =>
  rw [h1] at h
  cases h2 : encode_varint ins.length with
  | error e => rw [h2] at h; simp [Bind.bind, Except.bind] at h
  | ok icnt =>
  rw [h2] at h
  cases h3 : encodeInputsPlain tx ins with
  | error e => rw [h3] at h; simp [Bind.bind, Except.bind] at h
  | ok ib =>
  rw [h3] at h
  cases h4 : encode_varint outs.length with
  | error e => rw [h4] at h; simp [Bind.bind, Except.bind] at h
  | ok ocnt =>
  rw [h4] at h
  cases h5 : encodeOutputs tx outs with
  | error e => rw [h5] at h; simp [Bind.bind, Except.bind] at h
  | ok ob =>
  rw [h5] at h
  cases h6 : encode_int tx.locktime 4 with
  | error e => rw [h6] at h; simp [Bind.bind, Except.bind] at h
  | ok lk =>
  rw [h6] at h
  have hlk : lk = encode_int_le tx.locktime 4 := by
    simp only [encode_int] at h6
    split at h6
    · exact (Except.ok.inj h6).symm
    · exact absurd h6 (by simp)
  simp only [Bind.bind, Except.bind] at h
  have hbs : ver ++ icnt ++ ib ++ ocnt ++ ob ++ lk ++ ([] : List Nat) = bs :=
    Except.ok.inj h
  refine ⟨ver ++ icnt ++ ib ++ ocnt ++ ob, ?_⟩
  rw [← hbs, hlk]
  simp [List.append_assoc]

/-- C4: for sig_index = j ≥ 0, `Transaction.encode` is exactly the
broadcast (`sig_index = -1`) encoding of the input list in which input j's
unlocking script is replaced by its previous output's locking script and
every other input's by an empty script, plus the sighash trailer — i.e.
input j is serialized with the implied locking script and the others with
an empty script, while the `-1` encoding uses each input's own
`script_sig`. -/
theorem c4_sighash_script_substitution (tx : Transaction) (ins : List TxInput)
    (outs : List TxOutput) (j : Int) (hj : 0 ≤ j) :
    tx.encode ins outs j
      = (tx.encode (substIdx j 0 ins) outs (-1)).map
          (fun bs => bs ++ encode_int_le 1 4) :=
  encode_sig_eq_map tx ins outs j (by omega)

/-- C5: the serialized transaction ends with the 4 locktime bytes followed
by the 4-byte little-endian SIGHASH_ALL constant 1 when sig_index ≥ 0, and
ends at the locktime bytes (no trailer) when sig_index = -1. -/
theorem c5_sighash_trailer (tx : Transaction) (ins : List TxInput)
    (outs : List TxOutput) :
    (∀ (j : Int) (bs : List Nat), 0 ≤ j → tx.encode ins outs j = .ok bs →
      ∃ pre, bs = pre ++ encode_int_le tx.locktime 4 ++ encode_int_le 1 4) ∧
    (∀ bs : List Nat, tx.encode ins outs (-1) = .ok bs →
      ∃ pre, bs = pre ++ encode_int_le tx.locktime 4) := by
  constructor
  · intro j bs hj hok
    rw [encode_sig_eq_map tx ins outs j (by omega)] at hok
    cases h : tx.encode (substIdx j 0 ins) outs (-1) with
    | error e => rw [h] at hok; exact absurd hok (by simp [Except.map])
    | ok bs0 =>
      rw [h] at hok
      simp only [Except.map] at hok
      obtain ⟨pre, hpre⟩ := encode_final_tail tx (substIdx j 0 ins) outs bs0 h
      refine ⟨pre, ?_⟩
      have hbs : bs0 ++ encode_int_le 1 4 = bs := Except.ok.inj hok
      rw [← hbs, hpre]
  · exact fun bs h => encode_final_tail tx ins outs bs h

/-- C4 witness: the theorem applied to a concrete one-input, one-output
transaction at sig_index 0. -/
theorem c4_sighash_script_substitution_witness :
    (Transaction.mk 1 0).encode
        [TxInput.mk [170] 0 (some (Script.mk [Cmd.i 81])) 4294967295 (Script.mk [Cmd.i 118])]
        [TxOutput.mk 1000 (Script.mk [Cmd.i 81])] 0
      = ((Transaction.mk 1 0).encode
          (substIdx 0 0
            [TxInput.mk [170] 0 (some (Script.mk [Cmd.i 81])) 4294967295 (Script.mk [Cmd.i 118])])
          [TxOutput.mk 1000 (Script.mk [Cmd.i 81])] (-1)).map
          (fun bs => bs ++ encode_int_le 1 4) :=
  c4_sighash_script_substitution (Transaction.mk 1 0)
    [TxInput.mk [170] 0 (some (Script.mk [Cmd.i 81])) 4294967295 (Script.mk [Cmd.i 118])]
    [TxOutput.mk 1000 (Script.mk [Cmd.i 81])] 0 (by norm_num)

/-- C5 witness: the theorem applied to a concrete transaction whose
sighash encoding is evaluated explicitly. -/
theorem c5_sighash_trailer_witness :
    ∃ pre,
      [1, 0, 0, 0, 1, 170, 0, 0, 0, 0, 1, 118, 255, 255, 255, 255, 1, 232, 3,
        0, 0, 0, 0, 0, 0, 1, 81, 0, 0, 0, 0, 1, 0, 0, 0]
        = pre ++ encode_int_le 0 4 ++ encode_int_le 1 4 :=
  (c5_sighash_trailer (Transaction.mk 1 0)
    [TxInput.mk [170] 0 (some (Script.mk [Cmd.i 81])) 4294967295 (Script.mk [Cmd.i 118])]
    [TxOutput.mk 1000 (Script.mk [Cmd.i 81])]).1 0
    [1, 0, 0, 0, 1, 170, 0, 0, 0, 0, 1, 118, 255, 255, 255, 255, 1, 232, 3,
      0, 0, 0, 0, 0, 0, 1, 81, 0, 0, 0, 0, 1, 0, 0, 0]
    (by norm_num) (by rfl)

theorem gcd_sub_mul (a b q : Int) : Int.gcd b (a - q * b) = Int.gcd a b := by
  apply Nat.dvd_antisymm
  · rw [← Int.natCast_dvd_natCast]
    apply Int.dvd_gcd
    · have h1 : (Int.gcd b (a - q * b) : Int) ∣ b := Int.gcd_dvd_left
      have h2 : (Int.gcd b (a - q * b) : Int) ∣ a - q * b := Int.gcd_dvd_right
      have h3 := dvd_add h2 (h1.mul_left q)
      simpa using h3
    · exact Int.gcd_dvd_left
  · rw [← Int.natCast_dvd_natCast]
    apply Int.dvd_gcd
    · exact Int.gcd_dvd_right
    · have h1 : (Int.gcd a b : Int) ∣ a := Int.gcd_dvd_left
      have h2 : (Int.gcd a b : Int) ∣ b := Int.gcd_dvd_right
      exact dvd_sub h1 (h2.mul_left q)

theorem egcdGo_spec (n p : Int) :
    ∀ (fuel : Nat) (old_r r old_s s old_t t : Int),
      r.natAbs < fuel → 0 ≤ r → (r = 0 → 0 < old_r) →
      n * old_s + p * old_t = old_r →
      n * s + p * t = r →
      Int.gcd old_r r = Int.gcd n p →
      0 < (egcdGo fuel old_r r old_s s old_t t).1 ∧
      ((egcdGo fuel old_r r old_s s old_t t).1).natAbs = Int.gcd n p ∧
      n * (egcdGo fuel old_r r old_s s old_t t).2.1 +
        p * (egcdGo fuel old_r r old_s s old_t t).2.2
        = (egcdGo fuel old_r r old_s s old_t t).1 := by
  intro fuel
  induction fuel with
  | zero =>
    intro old_r r old_s s old_t t hlt
    exact absurd hlt (Nat.not_lt_zero _)
  | succ fuel ih =>
    intro old_r r old_s s old_t t hlt hr0 hpos hbz1 hbz2 hgcd
    by_cases hr : r = 0
    · subst hr
      have hred : egcdGo (fuel + 1) old_r 0 old_s s old_t t = (old_r, old_s, old_t) := by
        simp [egcdGo]
      rw [hred]
      refine ⟨hpos rfl, ?_, hbz1⟩
      rw [← hgcd, Int.gcd_zero_right]
    · have hrpos : 0 < r := lt_of_le_of_ne hr0 (Ne.symm hr)
      simp only [egcdGo, if_neg hr]
      have hfd : Int.fdiv old_r r = old_r / r := Int.fdiv_eq_ediv old_r (le_of_lt hrpos)
      have hrem : old_r - Int.fdiv old_r r * r = old_r % r := by
        rw [hfd, Int.emod_def]; ring
      have hnew0 : 0 ≤ old_r - Int.fdiv old_r r * r := by
        rw [hrem]; exact Int.emod_nonneg old_r hr
      have hnewlt : old_r - Int.fdiv old_r r * r < r := by
        rw [hrem]; exact Int.emod_lt_of_pos old_r hrpos
      refine ih r (old_r - Int.fdiv old_r r * r) s (old_s - Int.fdiv old_r r * s) t
        (old_t - Int.fdiv old_r r * t) (by omega) hnew0 (fun _ => hrpos) hbz2 ?_ ?_
      · have hring : n * (old_s - Int.fdiv old_r r * s) + p * (old_t - Int.fdiv old_r r * t)
            = (n * old_s + p * old_t) - Int.fdiv old_r r * (n * s + p * t) := by ring
        rw [hring, hbz1, hbz2]
      · rw [← hgcd]
        exact gcd_sub_mul old_r r (Int.fdiv old_r r)

theorem inv_correct (n p : Int) (hp : 2 ≤ p) (hg : Int.gcd n p = 1) :
    0 ≤ inv n p ∧ inv n p < p ∧ (n * inv n p) % p = 1 := by
  have hmain := egcdGo_spec n p (p.natAbs + 1) n p 1 0 0 1
    (by omega) (by omega) (by intro h0; omega) (by ring) (by ring) rfl
  obtain ⟨hpos, habs, hbz⟩ := hmain
  have hg1 : (egcdGo (p.natAbs + 1) n p 1 0 0 1).1 = 1 := by
    rw [hg] at habs
    omega
  rw [hg1] at hbz
  have hinv : inv n p = (egcdGo (p.natAbs + 1) n p 1 0 0 1).2.1 % p := rfl
  refine ⟨?_, ?_, ?_⟩
  · rw [hinv]; exact Int.emod_nonneg _ (by omega)
  · rw [hinv]; exact Int.emod_lt_of_pos _ (by omega)
  · rw [hinv]
    have h1 : n * ((egcdGo (p.natAbs + 1) n p 1 0 0 1).2.1 % p) % p
        = n * (egcdGo (p.natAbs + 1) n p 1 0 0 1).2.1 % p := by
      conv_lhs => rw [Int.mul_emod, Int.emod_emod_of_dvd _ dvd_rfl, ← Int.mul_emod]
    have h2 : n * (egcdGo (p.natAbs + 1) n p 1 0 0 1).2.1
        = 1 - p * (egcdGo (p.natAbs + 1) n p 1 0 0 1).2.2 := by linarith [hbz]
    have h3 : (1 - p * (egcdGo (p.natAbs + 1) n p 1 0 0 1).2.2) % p = 1 % p := by
      rw [Int.sub_emod, Int.mul_emod_right, sub_zero, Int.emod_emod_of_dvd 1 dvd_rfl]
    have h4 : (1 : Int) % p = 1 := Int.emod_eq_of_lt (by omega) (by omega)
    rw [h1, h2, h3, h4]

/-- C6: for all integers n and p with p ≥ 2 and gcd(n, p) = 1 (negative n
included), `inv(n, p)` lies in [0, p) and satisfies (n * inv(n, p)) % p = 1. -/
theorem c6_inv_correct (n p : Int) (hp : 2 ≤ p) (hg : Int.gcd n p = 1) :
    0 ≤ inv n p ∧ inv n p < p ∧ (n * inv n p) % p = 1 :=
  inv_correct n p hp hg

/-- C6 witness: the theorem applied at n = -3, p = 7 (a negative n as
produced by coordinate differences in point addition). -/
theorem c6_inv_correct_witness :
    0 ≤ inv (-3) 7 ∧ inv (-3) 7 < 7 ∧ ((-3) * inv (-3) 7) % 7 = 1 :=
  c6_inv_correct (-3) 7 (by norm_num) (by decide)

theorem chord_symm (p : Int) (hp : Nat.Prime p.natAbs) (hpos : 0 < p)
    (x1 y1 x2 y2 : Int) (hx1a : 0 ≤ x1) (hx1b : x1 < p) (hx2a : 0 ≤ x2)
    (hx2b : x2 < p) (hne : x1 ≠ x2) :
    ((((y1 - y2) * inv (x1 - x2) p) ^ 2 - x1 - x2) % p
      = (((y2 - y1) * inv (x2 - x1) p) ^ 2 - x2 - x1) % p) ∧
    (∀ rx : Int,
      (-(((y1 - y2) * inv (x1 - x2) p) * (rx - x1) + y1)) % p
        = (-(((y2 - y1) * inv (x2 - x1) p) * (rx - x2) + y2)) % p) := by
  have hp2 : 2 ≤ p := by
    have h2 := hp.two_le
    omega
  have hd0 : x1 - x2 ≠ 0 := sub_ne_zero.mpr hne
  have hnd : ¬ (p ∣ (x1 - x2)) := by
    intro hdvd
    have habs : |x1 - x2| < p := by
      rw [abs_lt]; omega
    exact hd0 (Int.eq_zero_of_abs_lt_dvd hdvd habs)
  have hnd2 : ¬ (p ∣ (x2 - x1)) := by
    intro hdvd
    refine hnd ?_
    have h := (dvd_neg (α := Int)).mpr hdvd
    simpa using h
  have hgcd1 : Int.gcd (x1 - x2) p = 1 := by
    have hcop : Nat.Coprime p.natAbs (x1 - x2).natAbs :=
      (Nat.Prime.coprime_iff_not_dvd hp).mpr
        (fun hd => hnd (Int.natAbs_dvd_natAbs.mp hd))
    exact Nat.Coprime.symm hcop
  have hgcd2 : Int.gcd (x2 - x1) p = 1 := by
    have hcop : Nat.Coprime p.natAbs (x2 - x1).natAbs :=
      (Nat.Prime.coprime_iff_not_dvd hp).mpr
        (fun hd => hnd2 (Int.natAbs_dvd_natAbs.mp hd))
    exact Nat.Coprime.symm hcop
  have h1p : (1 : Int) % p = 1 := Int.emod_eq_of_lt (by omega) (by omega)
  have hdu : (x1 - x2) * inv (x1 - x2) p ≡ 1 [ZMOD p] := by
    show ((x1 - x2) * inv (x1 - x2) p) % p = 1 % p
    rw [(inv_correct (x1 - x2) p hp2 hgcd1).2.2, h1p]
  have hdu2 : (x2 - x1) * inv (x2 - x1) p ≡ 1 [ZMOD p] := by
    show ((x2 - x1) * inv (x2 - x1) p) % p = 1 % p
    rw [(inv_correct (x2 - x1) p hp2 hgcd2).2.2, h1p]
  have huu : inv (x2 - x1) p ≡ -(inv (x1 - x2) p) [ZMOD p] := by
    calc inv (x2 - x1) p = inv (x2 - x1) p * 1 := by ring
      _ ≡ inv (x2 - x1) p * ((x1 - x2) * inv (x1 - x2) p) [ZMOD p] :=
        Int.ModEq.mul_left _ hdu.symm
      _ = ((x2 - x1) * inv (x2 - x1) p) * (-(inv (x1 - x2) p)) := by ring
      _ ≡ 1 * (-(inv (x1 - x2) p)) [ZMOD p] := Int.ModEq.mul_right _ hdu2
      _ = -(inv (x1 - x2) p) := by ring
  have hm : (y2 - y1) * inv (x2 - x1) p ≡ (y1 - y2) * inv (x1 - x2) p [ZMOD p] := by
    calc (y2 - y1) * inv (x2 - x1) p
        ≡ (y2 - y1) * (-(inv (x1 - x2) p)) [ZMOD p] := Int.ModEq.mul_left _ huu
      _ = (y1 - y2) * inv (x1 - x2) p := by ring
  constructor
  · show Int.ModEq p _ _
    calc ((y1 - y2) * inv (x1 - x2) p) ^ 2 - x1 - x2
        ≡ ((y2 - y1) * inv (x2 - x1) p) ^ 2 - x1 - x2 [ZMOD p] :=
        (((hm.symm).pow 2).sub_right x1).sub_right x2
      _ = ((y2 - y1) * inv (x2 - x1) p) ^ 2 - x2 - x1 := by ring
  · intro rx
    have hB : ((y1 - y2) * inv (x1 - x2) p) * (x1 - x2) ≡ y1 - y2 [ZMOD p] := by
      calc ((y1 - y2) * inv (x1 - x2) p) * (x1 - x2)
          = (y1 - y2) * ((x1 - x2) * inv (x1 - x2) p) := by ring
        _ ≡ (y1 - y2) * 1 [ZMOD p] := Int.ModEq.mul_left _ hdu
        _ = y1 - y2 := by ring
    have hD : ((y1 - y2) * inv (x1 - x2) p) * (x1 - x2) - (y1 - y2) ≡ 0 [ZMOD p] := by
      have h := hB.sub_right (y1 - y2)
      simpa using h
    show Int.ModEq p _ _
    calc -(((y1 - y2) * inv (x1 - x2) p) * (rx - x1) + y1)
        = -(((y1 - y2) * inv (x1 - x2) p) * (rx - x2) + y2)
          + (((y1 - y2) * inv (x1 - x2) p) * (x1 - x2) - (y1 - y2)) := by ring
      _ ≡ -(((y1 - y2) * inv (x1 - x2) p) * (rx - x2) + y2) + 0 [ZMOD p] :=
        Int.ModEq.add_left _ hD
      _ = -(((y1 - y2) * inv (x1 - x2) p) * (rx - x2) + y2) := by ring
      _ ≡ -(((y2 - y1) * inv (x2 - x1) p) * (rx - x2) + y2) [ZMOD p] :=
        (((hm.symm).mul_right (rx - x2)).add_right y2).neg

/-- C8: point addition is commutative for any two points of the same
curve group (each the identity sentinel or a point of F_p x F_p on the
curve, p the prime modulus): P + Q = Q + P across all branches of
`Point.__add__` — identity operands, inverse pair, doubling, and the
general chord case. -/
theorem c8_add_comm (c : Curve) (P Q : Point)
    (hp : Nat.Prime c.p.natAbs) (hpos : 0 < c.p)
    (hP : onCurveB c P = true) (hQ : onCurveB c Q = true) :
    pyAdd P Q = pyAdd Q P := by
  cases P with
  | INF =>
    cases Q with
    | INF => rfl
    | mk cq xq yq => rfl
  | mk cp xp yp =>
    cases Q with
    | INF => rfl
    | mk cq xq yq =>
      cases xp with
      | none => simp [onCurveB] at hP
      | some x1 =>
      cases yp with
      | none => simp [onCurveB] at hP
      | some y1 =>
      cases xq with
      | none => simp [onCurveB] at hQ
      | some x2 =>
      cases yq with
      | none => simp [onCurveB] at hQ
      | some y2 =>
      simp only [onCurveB, Bool.and_eq_true, beq_iff_eq, decide_eq_true_eq] at hP hQ
      obtain ⟨⟨⟨⟨⟨hcp, hx1a⟩, hx1b⟩, hy1a⟩, hy1b⟩, -⟩ := hP
      obtain ⟨⟨⟨⟨⟨hcq, hx2a⟩, hx2b⟩, hy2a⟩, hy2b⟩, -⟩ := hQ
      subst hcp
      subst hcq
      by_cases hx : x1 = x2
      · subst hx
        by_cases hy : y1 = y2
        · subst hy
          rfl
        · have hb : (y1 == y2) = false := beq_eq_false_iff_ne.mpr hy
          have hb2 : (y2 == y1) = false := beq_eq_false_iff_ne.mpr (Ne.symm hy)
          simp [pyAdd, pyEq, hb, hb2]
      · have hbx : (x1 == x2) = false := beq_eq_false_iff_ne.mpr hx
        have hbx2 : (x2 == x1) = false := beq_eq_false_iff_ne.mpr (Ne.symm hx)
        obtain ⟨h1, h2⟩ := chord_symm c.p hp hpos x1 y1 x2 y2 hx1a hx1b hx2a hx2b hx
        have hred1 : pyAdd (Point.mk (some c) (some x1) (some y1))
              (Point.mk (some c) (some x2) (some y2))
            = pyChord (some c) (some x1) (some x2) (some y1) (some y2) := by
          simp [pyAdd, pyEq, hbx]
        have hred2 : pyAdd (Point.mk (some c) (some x2) (some y2))
              (Point.mk (some c) (some x1) (some y1))
            = pyChord (some c) (some x2) (some x1) (some y2) (some y1) := by
          simp [pyAdd, pyEq, hbx2]
        rw [hred1, hred2]
        simp only [pyChord, Except.ok.injEq, Point.mk.injEq, Option.some.injEq]
        refine ⟨trivial, h1, ?_⟩
        rw [← h1]
        exact h2 _

/-- C8 witness: the theorem applied to the points (1, 2) and (2, 1) of
the curve y^2 = x^3 + 3 over F_5 (the general chord branch). -/
theorem c8_add_comm_witness :
    Nat.Prime (Curve.mk 5 0 3).p.natAbs ∧ 0 < (Curve.mk 5 0 3).p ∧
    onCurveB (Curve.mk 5 0 3)
      (Point.mk (some (Curve.mk 5 0 3)) (some 1) (some 2)) = true ∧
    onCurveB (Curve.mk 5 0 3)
      (Point.mk (some (Curve.mk 5 0 3)) (some 2) (some 1)) = true ∧
    pyAdd (Point.mk (some (Curve.mk 5 0 3)) (some 1) (some 2))
        (Point.mk (some (Curve.mk 5 0 3)) (some 2) (some 1))
      = pyAdd (Point.mk (some (Curve.mk 5 0 3)) (some 2) (some 1))
          (Point.mk (some (Curve.mk 5 0 3)) (some 1) (some 2)) :=
  ⟨by norm_num, by norm_num, by decide, by decide,
    c8_add_comm (Curve.mk 5 0 3) _ _ (by norm_num) (by norm_num) (by decide) (by decide)⟩

end BitcoinTour
